import Mathlib

/-!
# Verification of the clyngor answer-set formatting core

This file gives a shallow embedding, in Lean 4, of the repository's core
module `clyngor/answers.py` (the `Answers` class: option configuration,
fast-mode answer-set parsing, and answer-set formatting), together with
theorems checking the natural-language specification against it.

Modelling conventions:
* Python values flowing through the formatter (integers, strings, tuples,
  and the external legacy `as_pyasp.Atom` wrapper) are modelled by the
  inductive type `Val`.  Tuples are encoded with the two constructors
  `nilv`/`consv` (`Val.tupleOf` builds the encoding of a `List Val`).
* Code that can raise a Python exception is modelled with `Option`:
  `none` means "this call raises".
* `frozenset` values are modelled as first-occurrence-deduplicated lists
  (`dedupFirst`); equality of the underlying mathematical sets is expressed
  via `List.toFinset`.
* CPython's `sorted` builtin is modelled as a comparison-based stable sort
  (`sortedTupleO`) over the partial comparison `pyCompare`; the sort
  returns `none` when a performed comparison is undefined (Python raises
  `TypeError`).  Which exact pairs a real CPython sort compares is
  implementation specific; for lists of at most two elements both agree
  exactly, and on fully comparable lists both succeed with the same result.
-/

/-- A Python value as it occurs in the `Answers` pipeline: an `int`, a
`str`, a tuple (encoded by `nilv`/`consv`: `nilv` is the empty tuple and
`consv x t` the tuple with head `x` and tail-tuple `t`), or a legacy
`as_pyasp.Atom` value.  The `atomv` constructor is modelled from the spec:
the external atom factory `make_atom(predicate, args) -> AtomLike` of the
`as_pyasp` module (not part of this repository's core sources); the spec
grants it no ordering capability, and equality is modelled structurally. -/
inductive Val : Type
  | int : Int → Val
  | str : String → Val
  | nilv : Val
  | consv : Val → Val → Val
  | atomv : String → Val → Val
deriving DecidableEq, Repr

/-- Encode a list of values as a Python-tuple `Val`. -/
def Val.tupleOf (l : List Val) : Val := l.foldr Val.consv Val.nilv

/-- Decode a tuple-encoded `Val` back to the list of its members. -/
def Val.listOf : Val → Option (List Val)
  | .nilv => some []
  | .consv x xs => (Val.listOf xs).map (x :: ·)
  | _ => none

/-- The formatting configuration of an `Answers` object: the boolean
fields set by `Answers.__init__` (answers.py lines 23-31). -/
structure Config : Type where
  first_arg_only : Bool
  group_atoms : Bool
  as_pyasp : Bool
  sorted : Bool
  careful_parsing : Bool
  collapse_atoms : Bool
  collapse_args : Bool
  parse_int : Bool
  ignore_args : Bool
deriving DecidableEq, Repr

/-- The initial configuration built by `Answers.__init__`. -/
def initConfig : Config :=
  { first_arg_only := false, group_atoms := false, as_pyasp := false,
    sorted := false, careful_parsing := false, collapse_atoms := false,
    collapse_args := true, parse_int := true, ignore_args := false }

namespace Opt

/-- `Answers.first_arg_only` property: sets `_first_arg_only`. -/
def first_arg_only (c : Config) : Config := { c with first_arg_only := true }

/-- `Answers.by_predicate` property: sets `_group_atoms`. -/
def by_predicate (c : Config) : Config := { c with group_atoms := true }

/-- `Answers.as_pyasp` property: sets `_as_pyasp`. -/
def as_pyasp (c : Config) : Config := { c with as_pyasp := true }

/-- `Answers.sorted` property: sets `_sorted`. -/
def sorted (c : Config) : Config := { c with sorted := true }

/-- `Answers.careful_parsing` property: sets `_careful_parsing`. -/
def careful_parsing (c : Config) : Config := { c with careful_parsing := true }

/-- `Answers.atoms_as_string` property: sets both collapse flags. -/
def atoms_as_string (c : Config) : Config :=
  { c with collapse_atoms := true, collapse_args := true }

/-- `Answers.int_not_parsed` property: clears `_parse_int`. -/
def int_not_parsed (c : Config) : Config := { c with parse_int := false }

/-- `Answers.parse_args` property: sets `_careful_parsing` and clears both
collapse flags (answers.py lines 83-95). -/
def parse_args (c : Config) : Config :=
  { c with careful_parsing := true, collapse_atoms := false,
           collapse_args := false }

/-- `Answers.no_arg` property: sets `_ignore_args`. -/
def no_arg (c : Config) : Config := { c with ignore_args := true }

end Opt

/-! ## Python-semantics helpers -/

/-- Python truthiness of a `Val` (`bool(v)`): zero integers, empty strings
and empty tuples are falsy; atom objects use the default (truthy). -/
def pyTruthy : Val → Bool
  | .int n => n ≠ 0
  | .str s => s ≠ ""
  | .nilv => false
  | .consv _ _ => true
  | .atomv _ _ => true

/-- Python `v[0]`: first member of a tuple, or the first character of a
string as a one-character string; indexing anything else (or an empty
tuple) raises, which is modelled by `none`. -/
def pyIndex0 : Val → Option Val
  | .consv x _ => some x
  | .str s => s.data.head?.map fun ch => Val.str (String.singleton ch)
  | _ => none

/-- Python `tuple(v)`: the members of a tuple, or the characters of a
string as one-character strings; `tuple()` of anything else raises
(`none`).  Iterating an external atom value is not granted by the spec,
so it is also `none`. -/
def pyTupleOf : Val → Option (List Val)
  | .nilv => some []
  | .consv x xs => (Val.listOf (Val.consv x xs))
  | .str s => some (s.data.map fun ch => Val.str (String.singleton ch))
  | _ => none

/-- Python `v or ()` as used by `_parse_answer`: the value itself if
truthy, else the empty tuple. -/
def pyOrUnit (v : Val) : Val := if pyTruthy v then v else Val.nilv

/-- Python's comparison between two values, as used by `sorted`:
`some` ordering when the comparison is defined, `none` when Python raises
`TypeError`.  Integers and strings compare within their own type; tuples
compare lexicographically, skipping structurally equal members (Python
skips `==`-equal members) and comparing the first differing pair; every
cross-type comparison, and any comparison involving an external atom
value, is undefined. -/
def pyCompare : Val → Val → Option Ordering
  | .int a, .int b => some (compare a b)
  | .str a, .str b => some (compare a b)
  | .nilv, .nilv => some .eq
  | .nilv, .consv _ _ => some .lt
  | .consv _ _, .nilv => some .gt
  | .consv x xs, .consv y ys =>
      if x = y then pyCompare xs ys else pyCompare x y
  | _, _ => none

/-- Insert `x` into a list, keeping elements that compare `lt` with `x`
in front; `none` as soon as a needed comparison is undefined.  Helper for
the model of `sorted`. -/
def insertO (x : Val) : List Val → Option (List Val)
  | [] => some [x]
  | y :: ys =>
      match pyCompare x y with
      | none => none
      | some .lt => some (x :: y :: ys)
      | some _ => (insertO x ys).map (y :: ·)

/-- Model of `sorted(it)` (the `sorted_tuple` lambda of `_format`,
answers.py line 149): a comparison-based stable sort returning `none`
when a performed comparison raises `TypeError` in Python. -/
def sortedTupleO : List Val → Option (List Val)
  | [] => some []
  | x :: xs => (sortedTupleO xs).bind (insertO x)

/-- First-occurrence deduplication with an accumulator of already seen
elements.  Helper for the model of `frozenset` and `dict` key order. -/
def dedupFirstAux [DecidableEq α] (seen : List α) : List α → List α
  | [] => []
  | x :: xs =>
      if x ∈ seen then dedupFirstAux seen xs
      else x :: dedupFirstAux (x :: seen) xs

/-- First-occurrence deduplication: the model of building a `frozenset`
(or the key set of a `dict`) from an iteration, keeping each element's
first occurrence in iteration order. -/
def dedupFirst [DecidableEq α] (l : List α) : List α := dedupFirstAux [] l

/-- Map a fallible function over a list, failing as soon as one element
fails: the model of a Python loop or comprehension whose body may raise. -/
def omap (f : α → Option β) : List α → Option (List β)
  | [] => some []
  | x :: xs => (f x).bind fun y => (omap f xs).map (y :: ·)

/-! ## Containers and formatted answers -/

/-- The container chosen by `_format`'s `builder` (answers.py line 150):
either a `frozenset` (modelled as a first-occurrence-deduplicated list,
set semantics expressed through `toFinset`) or the tuple produced by
`sorted_tuple`. -/
inductive Container : Type
  | fset : List Val → Container
  | stup : List Val → Container
deriving DecidableEq, Repr

/-- The members of a container, as iterated by Python. -/
def Container.toList : Container → List Val
  | .fset l => l
  | .stup l => l

/-- The mathematical set of members of a container. -/
def Container.elems (c : Container) : Finset Val := c.toList.toFinset

/-- The external-facing `FormattedAnswer` value returned by `_format`:
either a flat container, or (when grouping) a mapping from predicate name
to container.  The mapping is modelled as a key-ordered association list
(Python `dict` preserves key insertion order). -/
inductive Formatted : Type
  | coll : Container → Formatted
  | fmap : List (String × Container) → Formatted
deriving DecidableEq, Repr

/-- `builder` of `_format` (answers.py line 150): `sorted_tuple` when the
`sorted` option is active, else `frozenset`. -/
def buildC (sorted : Bool) (l : List Val) : Option Container :=
  if sorted then (sortedTupleO l).map Container.stup
  else some (Container.fset (dedupFirst l))

/-- The pair value `(pred, residual)` put into the container by `_format`
(a Python 2-tuple). -/
def mkPairV (p : String) (r : Val) : Val :=
  Val.consv (Val.str p) (Val.consv r Val.nilv)

/-- Python unpacking `pred, args = element` on a container member
(`for pred, args in answer_set`, answers.py line 167): succeeds on a
2-tuple whose first member is a string, raises (`none`) otherwise.
(Python would also unpack a 2-character string; `_format` never puts one
in a container, and the spec assigns that case no meaning.) -/
def destructPair : Val → Option (String × Val)
  | .consv (.str p) (.consv r .nilv) => some (p, r)
  | _ => none

/-- The per-atom element of `_format` when `first_arg_only` is active
(answers.py line 159): `(pred, args[0] if args else ())`. -/
def firstArgElem (pa : String × Val) : Option (String × Val) :=
  if pyTruthy pa.2 then (pyIndex0 pa.2).map fun v => (pa.1, v)
  else some (pa.1, Val.nilv)

/-- The per-atom element of `_format` otherwise (answers.py line 162):
`(pred, tuple(args))`. -/
def fullArgsElem (pa : String × Val) : Option (String × Val) :=
  (pyTupleOf pa.2).map fun xs => (pa.1, Val.tupleOf xs)

/-- The element computation of `_format`'s non-`ignore_args` branches
(answers.py lines 158-163), before the container is built. -/
def formatElems (cfg : Config) (atoms : List (String × Val)) :
    Option (List (String × Val)) :=
  omap (if cfg.first_arg_only then firstArgElem else fullArgsElem) atoms

/-- The `defaultdict(set)` built by the grouping loop of `_format`
(answers.py lines 166-170), as the final association list: keys in first
occurrence order, each key's values in first-insertion order with set
deduplication.  (`mapping[pred]` is a Python `set`, whose own iteration
order is arbitrary; its mathematical content is this deduplicated list.) -/
def mappingOf (ps : List (String × Val)) : List (String × List Val) :=
  (dedupFirst (ps.map Prod.fst)).map fun k =>
    (k, dedupFirst (ps.filterMap fun q => if q.1 = k then some q.2 else none))

/-- The tail of `_format` after the container `answer_set` has been built
(answers.py lines 164-174): grouping by predicate, legacy-atom wrapping,
or the container itself. -/
def postFormat (cfg : Config) (cont : Container) : Option Formatted :=
  if cfg.group_atoms then
    (omap destructPair cont.toList).bind fun pairs =>
    (omap (fun kv => (buildC cfg.sorted kv.2).map fun c => (kv.1, c))
      (mappingOf (pairs.map fun pr =>
        (pr.1, if cfg.as_pyasp then Val.atomv pr.1 pr.2 else pr.2)))).map
      Formatted.fmap
  else if cfg.as_pyasp then
    (omap destructPair cont.toList).bind fun pairs =>
    (buildC cfg.sorted (pairs.map fun pr => Val.atomv pr.1 pr.2)).map
      Formatted.coll
  else
    some (Formatted.coll cont)

/-- Embedding of `Answers._format` (answers.py lines 144-174).  The input
is the parsed answer set: the list of `(predicate, arguments)` pairs, in
parse order.  `none` models a raised Python exception (in practice only
`TypeError` out of `sorted`, or unpacking/iteration errors on values the
pipeline cannot actually produce). -/
def format (cfg : Config) (answer_set : List (String × Val)) :
    Option Formatted :=
  if cfg.ignore_args then
    let preds := answer_set.map Prod.fst
    if cfg.group_atoms then
      some (Formatted.fmap ((dedupFirst preds).map fun p =>
        (p, Container.fset [])))
    else if cfg.as_pyasp then
      (buildC cfg.sorted (preds.map fun p =>
        Val.atomv p Val.nilv)).map Formatted.coll
    else
      (buildC cfg.sorted (preds.map Val.str)).map Formatted.coll
  else
    (formatElems cfg answer_set).bind fun els =>
    (buildC cfg.sorted (els.map fun pr => mkPairV pr.1 pr.2)).bind
      (postFormat cfg)

/-! ## Fast-mode parsing (`Answers._parse_answer`, else-branch) -/

/-- `[a-z]`: the character class starting an identifier in
`REG_ANSWER_SET` (answers.py line 120). -/
def isLowerAZ (c : Char) : Bool := 'a' ≤ c && c ≤ 'z'

/-- `[a-zA-Z0-9_]`: the identifier-continuation class of
`REG_ANSWER_SET`. -/
def isIdentChar (c : Char) : Bool :=
  ('a' ≤ c && c ≤ 'z') || ('A' ≤ c && c ≤ 'Z') ||
  ('0' ≤ c && c ≤ '9') || c = '_'

/-- The successive matches of
`re.finditer(r'([a-z][a-zA-Z0-9_]*)(\([^)]+\))?', s)` (answers.py lines
120 and 129), each as (group 1, optional group 2).  `re.finditer` scans
left to right: at a character in `[a-z]` it matches the maximal
identifier, then the optional parenthesized group, which (because `[^)]+`
cannot cross a `)`) matches up to and including the first `)` provided at
least one character precedes it; scanning resumes after the match.  A
failed optional group leaves scanning right after the identifier, and the
following characters (including any `(` or `)`) are skipped one by one
until the next `[a-z]`. -/
def fastMatchesF : Nat → List Char → List (List Char × Option (List Char))
  | 0, _ => []
  | _ + 1, [] => []
  | fuel + 1, c :: rest =>
    if isLowerAZ c then
      if (rest.dropWhile isIdentChar).head? = some '(' then
        if ((rest.dropWhile isIdentChar).tail.takeWhile fun d => d ≠ ')') ≠ []
            ∧ ((rest.dropWhile isIdentChar).tail.dropWhile fun d => d ≠ ')')
              ≠ [] then
          (c :: rest.takeWhile isIdentChar,
            some ('(' ::
              ((rest.dropWhile isIdentChar).tail.takeWhile fun d => d ≠ ')')
              ++ [')'])) ::
            fastMatchesF fuel
              ((rest.dropWhile isIdentChar).tail.dropWhile fun d => d ≠ ')')
        else
          (c :: rest.takeWhile isIdentChar, none) ::
            fastMatchesF fuel (rest.dropWhile isIdentChar)
      else
        (c :: rest.takeWhile isIdentChar, none) ::
          fastMatchesF fuel (rest.dropWhile isIdentChar)
    else fastMatchesF fuel rest

/-- The matches of `REG_ANSWER_SET` over a whole string: `fastMatchesF`
with enough fuel (every recursive call strictly shortens the remaining
character list, so the input length suffices; see
`fastMatchesF_fuel_irrelevant`). -/
def fastMatches (l : List Char) : List (List Char × Option (List Char)) :=
  fastMatchesF l.length l

/-- `str.split(',')` on a list of characters, with an accumulator for the
current (reversed) chunk: splits at every comma, keeping empty chunks,
and always returns at least one chunk. -/
def splitCommaAux (cur : List Char) : List Char → List (List Char)
  | [] => [cur.reverse]
  | c :: rest =>
      if c = ',' then cur.reverse :: splitCommaAux [] rest
      else splitCommaAux (c :: cur) rest

/-- `args.split(',')` (answers.py line 139). -/
def splitComma (l : List Char) : List (List Char) := splitCommaAux [] l

/-- Python `str.isnumeric` on one character, restricted to the character
universe used in this development: ASCII characters plus U+00BD VULGAR
FRACTION ONE HALF.  Within ASCII exactly the digits `0`-`9` are numeric;
`'½'` is numeric (Unicode `Numeric_Type=Numeric`) without being a decimal
digit.  (Other non-ASCII numerics behave like one of these two cases.) -/
def isPyNumeric (c : Char) : Bool := c.isDigit || c = '½'

/-- Python `str.isnumeric` on a string given as characters: nonempty and
all characters numeric. -/
def strIsNumeric (l : List Char) : Bool := !l.isEmpty && l.all isPyNumeric

/-- The guard of `_parse_answer`'s integer conversion (answers.py line
138): `(arg[1:] if arg.startswith('-') else arg).isnumeric()`. -/
def signedNumericGuard (arg : List Char) : Bool :=
  if arg.head? = some '-' then strIsNumeric arg.tail else strIsNumeric arg

/-- Numeric value of a list of decimal digits. -/
def digitsVal (l : List Char) : Nat :=
  l.foldl (fun acc c => acc * 10 + (c.toNat - '0'.toNat)) 0

/-- Python `int(arg)` (answers.py line 137) on the strings that can reach
it: an optional leading `-` followed by characters that all pass
`isnumeric`.  It succeeds exactly when the digits are decimal digits
(Unicode `Nd`; in our universe, ASCII `0`-`9`), and raises `ValueError`
(`none`) on other numeric characters such as `'½'`.  (The leading `+`,
surrounding whitespace and `_` separators `int` also accepts cannot pass
the `isnumeric` guard.) -/
def pyIntOf (arg : List Char) : Option Int :=
  if arg.head? = some '-' then
    if !arg.tail.isEmpty && arg.tail.all Char.isDigit then
      some (-(digitsVal arg.tail : Int))
    else none
  else
    if !arg.isEmpty && arg.all Char.isDigit then
      some ((digitsVal arg : Int))
    else none

/-- One argument of a fast-mode atom (answers.py lines 136-139):
`int(arg) if self._parse_int and (arg[1:] if arg.startswith('-') else
arg).isnumeric() else arg`.  `none` models the `ValueError` raised by
`int` on a non-decimal numeric argument. -/
def parseArgFast (parse_int : Bool) (arg : List Char) : Option Val :=
  if parse_int && signedNumericGuard arg then (pyIntOf arg).map Val.int
  else some (Val.str (String.mk arg))

/-- Embedding of the else-branch ("the good ol' split") of
`Answers._parse_answer` (answers.py lines 127-141).  The if-branch
delegates to `clyngor.parsing.Parser`, an external module that is not
part of this repository's core sources and is not modelled here.  For
each regex match: group 2 absent yields `()` (via `args or ()`); with
`collapse_atoms` the parenthesis-stripped argument text is kept as one
string; otherwise the text is split on commas and each piece converted
by `parseArgFast`. -/
def parseAnswerFast (cfg : Config) (s : String) :
    Option (List (String × Val)) :=
  omap (fun m =>
    match m.2 with
    | none => some (String.mk m.1, Val.nilv)
    | some a =>
      let inner := (a.drop 1).dropLast
      if cfg.collapse_atoms then
        some (String.mk m.1, pyOrUnit (Val.str (String.mk inner)))
      else
        (omap (parseArgFast cfg.parse_int) (splitComma inner)).map fun args =>
          (String.mk m.1, pyOrUnit (Val.tupleOf args)))
    (fastMatches s.data)

/-- One step of iterating an `Answers` object in fast mode
(`__iter__`, answers.py lines 110-115, for a configuration with
`careful_parsing` off): parse one raw answer-set string and format it. -/
def solveOne (cfg : Config) (s : String) : Option Formatted :=
  (parseAnswerFast cfg s).bind (format cfg)

/-- The state of an `Answers` object: its configuration and the raw
strings not yet consumed from `self._answers`.  `__init__` (answers.py
line 21) calls `iter(answers)` once, so the source — restartable or not —
is reduced to this single shared iterator at construction. -/
structure AnswersState : Type where
  cfg : Config
  remaining : List String
deriving DecidableEq, Repr

/-- `Answers(answers)`: the freshly constructed object over a list
source. -/
def mkAnswers (answers : List String) : AnswersState :=
  { cfg := initConfig, remaining := answers }

/-- One complete iteration of the `Answers` object (`__iter__`): yields
one formatted value per remaining raw string and leaves the shared
iterator exhausted.  (The values are computed by the fast-mode pipeline
`solveOne`; the exhaustion of `remaining` is parser-independent.) -/
def iterOnce (st : AnswersState) : List (Option Formatted) × AnswersState :=
  (st.remaining.map (solveOne st.cfg), { st with remaining := [] })

/-- Order-insensitive equality of formatted answers: flat containers with
the same member set, or mappings assigning every predicate containers
with the same member set. -/
def FormattedEquiv : Formatted → Formatted → Prop
  | .coll c, .coll c' => c.elems = c'.elems
  | .fmap l, .fmap l' => ∀ k : String,
      (List.lookup k l).map Container.elems =
        (List.lookup k l').map Container.elems
  | _, _ => False

/-- The spec's description of the `first_arg_only` residue: the first
argument, unwrapped (not enclosed in a one-element sequence), and an
empty tuple for an atom with no arguments. -/
def firstOrUnit : Val → Val
  | .consv x _ => x
  | _ => Val.nilv

/-- Recognizes a tuple value all of whose members are integers. -/
def isIntTuple : Val → Bool
  | .nilv => true
  | .consv (.int _) xs => isIntTuple xs
  | _ => false

/-! ## Lemmas and claim theorems -/

/-- `dropWhile` never lengthens a list (termination helper). -/
theorem length_dropWhile_le (p : α → Bool) (l : List α) :
    (l.dropWhile p).length ≤ l.length := by
  induction l with
  | nil => simp [List.dropWhile]
  | cons x xs ih =>
      by_cases h : p x
      · simp only [List.dropWhile_cons, h, if_true, List.length_cons]
        omega
      · simp [List.dropWhile_cons, h]

/-- `takeWhile` never lengthens a list (helper). -/
theorem length_takeWhile_le (p : α → Bool) (l : List α) :
    (l.takeWhile p).length ≤ l.length := by
  induction l with
  | nil => simp [List.takeWhile]
  | cons x xs ih =>
      by_cases h : p x
      · simp [List.takeWhile_cons, h]; omega
      · simp [List.takeWhile_cons, h]

/-- `fastMatchesF` on the empty character list (helper). -/
theorem fastMatchesF_nil (k : Nat) : fastMatchesF k [] = [] := by
  cases k <;> rfl

/-- Any fuel of at least the input length computes the same matches: the
fuel argument of `fastMatchesF` is an artifact of the encoding, not part
of the modelled regex scan. -/
theorem fastMatchesF_fuel_irrelevant :
    ∀ (fuel fuel' : Nat) (l : List Char), l.length ≤ fuel →
      l.length ≤ fuel' → fastMatchesF fuel l = fastMatchesF fuel' l := by
  intro fuel
  induction fuel with
  | zero =>
      intro fuel' l hl _
      have hnil : l = [] := List.length_eq_zero.mp (Nat.le_zero.mp hl)
      subst hnil
      rw [fastMatchesF_nil, fastMatchesF_nil]
  | succ n ih =>
      intro fuel' l hl hl'
      cases l with
      | nil => rw [fastMatchesF_nil, fastMatchesF_nil]
      | cons c rest =>
        cases fuel' with
        | zero => simp at hl'
        | succ m =>
          simp only [List.length_cons] at hl hl'
          have hrest : rest.length ≤ n := by omega
          have hrest' : rest.length ≤ m := by omega
          have hdw := length_dropWhile_le isIdentChar rest
          have htl : (rest.dropWhile isIdentChar).tail.length ≤ rest.length := by
            have := List.length_tail (rest.dropWhile isIdentChar)
            omega
          have hdw2 := length_dropWhile_le (fun d => d ≠ ')')
            (rest.dropWhile isIdentChar).tail
          simp only [fastMatchesF]
          split_ifs with hc hh hg
          · exact congrArg _ (ih m _ (by omega) (by omega))
          · exact congrArg _ (ih m _ (by omega) (by omega))
          · exact congrArg _ (ih m _ (by omega) (by omega))
          · exact ih m rest hrest hrest'

/-! ## Claim theorems: iteration, configuration, concrete scenarios -/

/-- C1 (counterexample): the claim "iterating the Answers object a second
time, after a first complete iteration, yields the same sequence again
whenever the source is restartable" is false.  With the restartable list
source `["a"]`, the first complete iteration yields one formatted answer
set, but the second yields the empty sequence: `__init__` reduced the
source to a single iterator, which the first pass exhausted. -/
theorem answers_second_iteration_differs :
    (iterOnce ((iterOnce (mkAnswers ["a"])).2)).1 ≠
      (iterOnce (mkAnswers ["a"])).1 := by decide

/-- C1 (amended): the `Answers` wrapper is single-pass even over a
restartable source: after one complete iteration the shared iterator is
exhausted, and every further complete iteration yields the empty
sequence, whatever the configuration and source. -/
theorem answers_second_iteration_empty (st : AnswersState) :
    (iterOnce ((iterOnce st).2)).1 = [] := rfl

/-- C2: activating `parse_args` on any configuration — hence after any
sequence of prior option activations, including an earlier activation of
`atoms_as_string` (which sets both collapse flags) — leaves careful
parsing enabled and both collapse flags disabled, so subsequent iteration
uses the careful parser with no collapsing. -/
theorem parse_args_forces_careful_no_collapse (c : Config) :
    (Opt.parse_args c).careful_parsing = true ∧
    (Opt.parse_args c).collapse_atoms = false ∧
    (Opt.parse_args c).collapse_args = false :=
  ⟨rfl, rfl, rfl⟩

/-- C5 (code bug): the argument `½` passes the code's signed-`isnumeric`
guard, so with integer parsing enabled the fast parser calls `int('½')`,
which raises `ValueError` instead of producing an integer or keeping the
string — contradicting "the conversion never fails".  The whole fast-mode
pipeline on the raw answer set `p(½)` raises accordingly. -/
theorem fast_int_conversion_raises_on_nondigit_numeric :
    signedNumericGuard ['½'] = true ∧ parseArgFast true ['½'] = none ∧
    solveOne initConfig "p(½)" = none := by decide

/-- C6 (counterexample): the claim "producing the sorted sequence
succeeds without error for every parsed answer set, including ones whose
atoms mix integer and string arguments under the same predicate" is
false: formatting the parsed answer set `{p(1), p(a)}` — equally, the raw
answer set `"p(1) p(a)"` — with the `sorted` option raises `TypeError`,
because Python defines no order between `int` and `str`. -/
theorem sorted_mixed_int_str_raises :
    format (Opt.sorted initConfig)
        [("p", Val.tupleOf [Val.int 1]), ("p", Val.tupleOf [Val.str "a"])] =
      none ∧
    solveOne (Opt.sorted initConfig) "p(1) p(a)" = none := by decide

/-- C8: formatting the five raw answer-set strings `"d a"`, `"d b"`,
`"d c"`, `"e"`, `""` with `discard_args` (`no_arg`) active yields, in
order, exactly the five predicate-name sets `{d,a}`, `{d,b}`, `{d,c}`,
`{e}` and the empty set (the `fset` lists are the `frozenset` models;
the final conjuncts state their set readings). -/
theorem no_arg_five_scenario :
    ["d a", "d b", "d c", "e", ""].map (solveOne (Opt.no_arg initConfig)) =
      [some (Formatted.coll (Container.fset [Val.str "d", Val.str "a"])),
       some (Formatted.coll (Container.fset [Val.str "d", Val.str "b"])),
       some (Formatted.coll (Container.fset [Val.str "d", Val.str "c"])),
       some (Formatted.coll (Container.fset [Val.str "e"])),
       some (Formatted.coll (Container.fset []))] ∧
    (Container.fset [Val.str "d", Val.str "a"]).elems =
      {Val.str "d", Val.str "a"} ∧
    (Container.fset [Val.str "d", Val.str "b"]).elems =
      {Val.str "d", Val.str "b"} ∧
    (Container.fset [Val.str "d", Val.str "c"]).elems =
      {Val.str "d", Val.str "c"} ∧
    (Container.fset [Val.str "e"]).elems = {Val.str "e"} ∧
    (Container.fset []).elems = (∅ : Finset Val) := by decide

/-- C9: formatting the raw answer set `rel(a,c) rel(a,d) rel(b,d)
rel(b,e)` with `group_by_predicate` and `first_arg_only` active (and
`sorted` inactive) yields the mapping from `"rel"` to the set
`{"a","b"}`: the duplicate first arguments collapse because the grouped
container is a set. -/
theorem group_first_arg_scenario :
    solveOne (Opt.first_arg_only (Opt.by_predicate initConfig))
        "rel(a,c) rel(a,d) rel(b,d) rel(b,e)" =
      some (Formatted.fmap
        [("rel", Container.fset [Val.str "a", Val.str "b"])]) ∧
    (Container.fset [Val.str "a", Val.str "b"]).elems =
      {Val.str "a", Val.str "b"} := by decide

/-! ## Supporting lemmas -/

/-- Membership in `omap` output: exactly the successful images of input
elements. -/
theorem omap_mem {f : α → Option β} :
    ∀ {l : List α} {ys : List β}, omap f l = some ys →
      ∀ y, y ∈ ys ↔ ∃ x ∈ l, f x = some y := by
  intro l
  induction l with
  | nil =>
      intro ys h y
      simp only [omap] at h
      cases h
      simp
  | cons x xs ih =>
      intro ys h y
      simp only [omap, Option.bind_eq_some, Option.map_eq_some'] at h
      obtain ⟨b, hb, zs, hzs, rfl⟩ := h
      simp only [List.mem_cons, ih hzs y]
      constructor
      · rintro (rfl | ⟨x', hx', hfx'⟩)
        · exact ⟨x, Or.inl rfl, hb⟩
        · exact ⟨x', Or.inr hx', hfx'⟩
      · rintro ⟨x', hx' | hx', hfx'⟩
        · subst hx'
          rw [hb] at hfx'
          cases hfx'
          exact Or.inl rfl
        · exact Or.inr ⟨x', hx', hfx'⟩

/-- `omap` succeeds when `f` succeeds on every element. -/
theorem omap_isSome {f : α → Option β} :
    ∀ {l : List α}, (∀ x ∈ l, (f x).isSome) → ∃ ys, omap f l = some ys := by
  intro l
  induction l with
  | nil => intro _; exact ⟨[], rfl⟩
  | cons x xs ih =>
      intro h
      obtain ⟨y, hy⟩ := Option.isSome_iff_exists.mp (h x (List.mem_cons_self x xs))
      obtain ⟨ys, hys⟩ := ih fun z hz => h z (List.mem_cons_of_mem x hz)
      exact ⟨y :: ys, by simp [omap, hy, hys]⟩

/-- `omap` of a pointwise-successful function is the pointwise map. -/
theorem omap_congr_some {f : α → Option β} {g : α → β} :
    ∀ {l : List α}, (∀ x ∈ l, f x = some (g x)) →
      omap f l = some (l.map g) := by
  intro l
  induction l with
  | nil => intro _; rfl
  | cons x xs ih =>
      intro h
      simp [omap, h x (List.mem_cons_self x xs),
        ih fun z hz => h z (List.mem_cons_of_mem x hz)]

/-- Membership in `dedupFirstAux`: in the list and not yet seen. -/
theorem mem_dedupFirstAux [DecidableEq α] {y : α} :
    ∀ {l seen : List α}, y ∈ dedupFirstAux seen l ↔ y ∈ l ∧ y ∉ seen := by
  intro l
  induction l with
  | nil => intro seen; simp [dedupFirstAux]
  | cons x xs ih =>
      intro seen
      simp only [dedupFirstAux]
      by_cases hx : x ∈ seen
      · rw [if_pos hx, ih]
        simp only [List.mem_cons]
        constructor
        · rintro ⟨h1, h2⟩
          exact ⟨Or.inr h1, h2⟩
        · rintro ⟨rfl | h1, h2⟩
          · exact absurd hx h2
          · exact ⟨h1, h2⟩
      · rw [if_neg hx]
        simp only [List.mem_cons, ih, List.mem_cons]
        constructor
        · rintro (rfl | ⟨h1, h2⟩)
          · exact ⟨Or.inl rfl, hx⟩
          · exact ⟨Or.inr h1, fun hy => h2 (Or.inr hy)⟩
        · rintro ⟨h1 | h1, h2⟩
          · exact Or.inl h1
          · by_cases hyx : y = x
            · exact Or.inl hyx
            · exact Or.inr ⟨h1, fun hy => hy.elim hyx h2⟩

/-- Membership in `dedupFirst` is membership in the original list. -/
theorem mem_dedupFirst [DecidableEq α] {y : α} {l : List α} :
    y ∈ dedupFirst l ↔ y ∈ l := by
  simp [dedupFirst, mem_dedupFirstAux]

/-- `dedupFirst` preserves the element set. -/
theorem toFinset_dedupFirst [DecidableEq α] (l : List α) :
    (dedupFirst l).toFinset = l.toFinset := by
  ext y
  simp [List.mem_toFinset, mem_dedupFirst]

/-- A successful `insertO` permutes the inserted element into the list. -/
theorem insertO_perm {x : Val} :
    ∀ {l l' : List Val}, insertO x l = some l' → l'.Perm (x :: l) := by
  intro l
  induction l with
  | nil =>
      intro l' h
      cases h
      exact List.Perm.refl _
  | cons y ys ih =>
      intro l' h
      simp only [insertO] at h
      cases hc : pyCompare x y with
      | none => rw [hc] at h; cases h
      | some o =>
          rw [hc] at h
          cases o with
          | lt =>
              cases h
              exact List.Perm.refl _
          | eq =>
              simp only [Option.map_eq_some'] at h
              obtain ⟨zs, hzs, rfl⟩ := h
              exact ((ih hzs).cons y).trans (List.Perm.swap x y ys)
          | gt =>
              simp only [Option.map_eq_some'] at h
              obtain ⟨zs, hzs, rfl⟩ := h
              exact ((ih hzs).cons y).trans (List.Perm.swap x y ys)

/-- A successful `sortedTupleO` is a permutation of its input: the model
of `sorted` only reorders elements. -/
theorem sortedTupleO_perm :
    ∀ {l l' : List Val}, sortedTupleO l = some l' → l'.Perm l := by
  intro l
  induction l with
  | nil =>
      intro l' h
      cases h
      exact List.Perm.refl _
  | cons x xs ih =>
      intro l' h
      simp only [sortedTupleO, Option.bind_eq_some] at h
      obtain ⟨zs, hzs, hins⟩ := h
      exact (insertO_perm hins).trans ((ih hzs).cons x)

/-- `insertO` succeeds when the new element compares with every list
element. -/
theorem insertO_isSome {x : Val} :
    ∀ {l : List Val}, (∀ y ∈ l, (pyCompare x y).isSome) →
      ∃ l', insertO x l = some l' := by
  intro l
  induction l with
  | nil => intro _; exact ⟨[x], rfl⟩
  | cons y ys ih =>
      intro h
      obtain ⟨o, ho⟩ := Option.isSome_iff_exists.mp
        (h y (List.mem_cons_self y ys))
      obtain ⟨zs, hzs⟩ := ih fun z hz => h z (List.mem_cons_of_mem y hz)
      cases o with
      | lt => exact ⟨x :: y :: ys, by simp [insertO, ho]⟩
      | eq => exact ⟨y :: zs, by simp [insertO, ho, hzs]⟩
      | gt => exact ⟨y :: zs, by simp [insertO, ho, hzs]⟩

/-- `sortedTupleO` succeeds on a pairwise-comparable list. -/
theorem sortedTupleO_isSome :
    ∀ {l : List Val}, (∀ a ∈ l, ∀ b ∈ l, (pyCompare a b).isSome) →
      ∃ l', sortedTupleO l = some l' := by
  intro l
  induction l with
  | nil => intro _; exact ⟨[], rfl⟩
  | cons x xs ih =>
      intro h
      obtain ⟨zs, hzs⟩ := ih fun a ha b hb =>
        h a (List.mem_cons_of_mem x ha) b (List.mem_cons_of_mem x hb)
      have hmem : ∀ y ∈ zs, (pyCompare x y).isSome := fun y hy =>
        h x (List.mem_cons_self x xs) y
          (List.mem_cons_of_mem x ((sortedTupleO_perm hzs).mem_iff.mp hy))
      obtain ⟨l', hl'⟩ := insertO_isSome hmem
      exact ⟨l', by simp [sortedTupleO, hzs, hl']⟩

/-- The members of a successfully built container are exactly the
elements handed to `builder`: `frozenset` deduplicates, `sorted_tuple`
permutes, neither adds or removes. -/
theorem buildC_elems {s : Bool} {l : List Val} {c : Container}
    (h : buildC s l = some c) : c.toList.toFinset = l.toFinset := by
  cases s with
  | false =>
      simp only [buildC, Bool.false_eq_true, if_false] at h
      cases h
      exact toFinset_dedupFirst l
  | true =>
      simp only [buildC, if_true, Option.map_eq_some'] at h
      obtain ⟨zs, hzs, rfl⟩ := h
      exact List.toFinset_eq_of_perm _ _ (sortedTupleO_perm hzs)

/-- `builder` with `sorted` off never fails: it is `frozenset`. -/
theorem buildC_false (l : List Val) :
    buildC false l = some (Container.fset (dedupFirst l)) := rfl

/-- Unpacking succeeds on the pair values `_format` builds. -/
theorem destructPair_mkPairV (p : String) (r : Val) :
    destructPair (mkPairV p r) = some (p, r) := rfl

/-- `omap` success implies pointwise success. -/
theorem omap_forall_isSome {f : α → Option β} :
    ∀ {l : List α} {ys : List β}, omap f l = some ys →
      ∀ x ∈ l, (f x).isSome := by
  intro l
  induction l with
  | nil => intro ys _ x hx; cases hx
  | cons z zs ih =>
      intro ys h x hx
      simp only [omap, Option.bind_eq_some, Option.map_eq_some'] at h
      obtain ⟨b, hb, ws, hws, rfl⟩ := h
      rcases List.mem_cons.mp hx with rfl | hx'
      · simp [hb]
      · exact ih hws x hx'

/-- Equal element sets give equal membership. -/
theorem mem_of_toFinset_eq [DecidableEq α] {l1 l2 : List α}
    (h : l1.toFinset = l2.toFinset) (x : α) : x ∈ l1 ↔ x ∈ l2 := by
  rw [← List.mem_toFinset, h, List.mem_toFinset]

/-- `filterMap` only depends on the element set, up to element sets. -/
theorem toFinset_filterMap_congr [DecidableEq α] [DecidableEq β]
    {f : α → Option β} {l1 l2 : List α} (h : l1.toFinset = l2.toFinset) :
    (l1.filterMap f).toFinset = (l2.filterMap f).toFinset := by
  ext y
  simp only [List.mem_toFinset, List.mem_filterMap]
  constructor
  · rintro ⟨x, hx, hfx⟩
    exact ⟨x, (mem_of_toFinset_eq h x).mp hx, hfx⟩
  · rintro ⟨x, hx, hfx⟩
    exact ⟨x, (mem_of_toFinset_eq h x).mpr hx, hfx⟩

/-- `map` only depends on the element set, up to element sets. -/
theorem toFinset_map_congr [DecidableEq α] [DecidableEq β]
    {f : α → β} {l1 l2 : List α} (h : l1.toFinset = l2.toFinset) :
    (l1.map f).toFinset = (l2.map f).toFinset := by
  ext y
  simp only [List.mem_toFinset, List.mem_map]
  constructor
  · rintro ⟨x, hx, hfx⟩
    exact ⟨x, (mem_of_toFinset_eq h x).mp hx, hfx⟩
  · rintro ⟨x, hx, hfx⟩
    exact ⟨x, (mem_of_toFinset_eq h x).mpr hx, hfx⟩

/-- Successful unpackings of two element-set-equal lists have equal
element sets. -/
theorem destruct_toFinset_congr {L1 L2 : List Val}
    {ps1 ps2 : List (String × Val)}
    (h1 : omap destructPair L1 = some ps1)
    (h2 : omap destructPair L2 = some ps2)
    (hL : L1.toFinset = L2.toFinset) : ps1.toFinset = ps2.toFinset := by
  ext y
  simp only [List.mem_toFinset, omap_mem h1 y, omap_mem h2 y]
  constructor
  · rintro ⟨v, hv, hdv⟩
    exact ⟨v, (mem_of_toFinset_eq hL v).mp hv, hdv⟩
  · rintro ⟨v, hv, hdv⟩
    exact ⟨v, (mem_of_toFinset_eq hL v).mpr hv, hdv⟩

/-- Looking a key up in a keyed `map` yields its image iff the key
occurs. -/
theorem lookup_map_keys {β : Type} (f : String → β) (k : String) :
    ∀ ks : List String,
      List.lookup k (ks.map fun x => (x, f x)) =
        if k ∈ ks then some (f k) else none := by
  intro ks
  induction ks with
  | nil => simp
  | cons a as ih =>
      simp only [List.map_cons, List.lookup, List.mem_cons]
      by_cases hk : k = a
      · subst hk
        simp
      · have : (k == a) = false := beq_false_of_ne hk
        simp [this, ih, hk]

/-- Looking a predicate up in the grouped mapping: the deduplicated
values recorded for it, iff it occurs as a key. -/
theorem mappingOf_lookup (k : String) (ps : List (String × Val)) :
    List.lookup k (mappingOf ps) =
      if k ∈ ps.map Prod.fst then
        some (dedupFirst (ps.filterMap fun q =>
          if q.1 = k then some q.2 else none))
      else none := by
  unfold mappingOf
  rw [lookup_map_keys (fun k => dedupFirst (ps.filterMap fun q =>
    if q.1 = k then some q.2 else none)) k (dedupFirst (ps.map Prod.fst))]
  by_cases hk : k ∈ ps.map Prod.fst
  · rw [if_pos (mem_dedupFirst.mpr hk), if_pos hk]
  · rw [if_neg (fun hc => hk (mem_dedupFirst.mp hc)), if_neg hk]

/-- Looking up in the per-key-built association list of `postFormat`'s
grouping branch factors through the mapping. -/
theorem omap_lookup_build {g : List Val → Option Container} :
    ∀ {m : List (String × List Val)} {l : List (String × Container)},
      omap (fun kv => (g kv.2).map fun c => (kv.1, c)) m = some l →
      ∀ k, List.lookup k l = (List.lookup k m).bind g := by
  intro m
  induction m with
  | nil =>
      intro l h k
      cases h
      simp
  | cons kv rest ih =>
      intro l h k
      simp only [omap, Option.bind_eq_some, Option.map_eq_some'] at h
      obtain ⟨y, ⟨c, hc, rfl⟩, ws, hws, rfl⟩ := h
      simp only [List.lookup]
      by_cases hk : k = kv.1
      · subst hk
        simp [hc]
      · have hbeq : (k == kv.1) = false := beq_false_of_ne hk
        simp only [hbeq]
        exact ih hws k

/-! ## Case shapes of `format` and `postFormat` -/

/-- `_format` under `ignore_args` and `group_atoms`: the per-predicate
empty mapping (answers.py lines 153-154). -/
theorem format_ignore_group {cfg : Config} (hig : cfg.ignore_args = true)
    (hg : cfg.group_atoms = true) (atoms : List (String × Val)) :
    format cfg atoms = some (Formatted.fmap
      ((dedupFirst (atoms.map Prod.fst)).map fun p =>
        (p, Container.fset []))) := by
  simp [format, hig, hg]

/-- `_format` under `ignore_args` and `as_pyasp` (answers.py lines
155-156). -/
theorem format_ignore_pyasp {cfg : Config} (hig : cfg.ignore_args = true)
    (hg : cfg.group_atoms = false) (hp : cfg.as_pyasp = true)
    (atoms : List (String × Val)) :
    format cfg atoms = (buildC cfg.sorted ((atoms.map Prod.fst).map fun p =>
      Val.atomv p Val.nilv)).map Formatted.coll := by
  simp [format, hig, hg, hp]

/-- `_format` under `ignore_args` alone (answers.py line 157). -/
theorem format_ignore_plain {cfg : Config} (hig : cfg.ignore_args = true)
    (hg : cfg.group_atoms = false) (hp : cfg.as_pyasp = false)
    (atoms : List (String × Val)) :
    format cfg atoms = (buildC cfg.sorted
      ((atoms.map Prod.fst).map Val.str)).map Formatted.coll := by
  simp [format, hig, hg, hp]

/-- `_format` without `ignore_args`: element computation, container
build, then the tail (answers.py lines 158-174). -/
theorem format_not_ignore {cfg : Config} (hig : cfg.ignore_args = false)
    (atoms : List (String × Val)) :
    format cfg atoms = (formatElems cfg atoms).bind fun els =>
      (buildC cfg.sorted (els.map fun pr => mkPairV pr.1 pr.2)).bind
        (postFormat cfg) := by
  simp [format, hig]

/-- The tail of `_format` with neither grouping nor legacy atoms: the
container itself. -/
theorem postFormat_plain {cfg : Config} (hg : cfg.group_atoms = false)
    (hp : cfg.as_pyasp = false) (cont : Container) :
    postFormat cfg cont = some (Formatted.coll cont) := by
  simp [postFormat, hg, hp]

/-- The tail of `_format` with legacy atoms, ungrouped (answers.py lines
172-173). -/
theorem postFormat_pyasp {cfg : Config} (hg : cfg.group_atoms = false)
    (hp : cfg.as_pyasp = true) (cont : Container) :
    postFormat cfg cont = (omap destructPair cont.toList).bind fun pairs =>
      (buildC cfg.sorted (pairs.map fun pr =>
        Val.atomv pr.1 pr.2)).map Formatted.coll := by
  simp [postFormat, hg, hp]

/-- The tail of `_format` with grouping (answers.py lines 165-171). -/
theorem postFormat_group {cfg : Config} (hg : cfg.group_atoms = true)
    (cont : Container) :
    postFormat cfg cont = (omap destructPair cont.toList).bind fun pairs =>
      (omap (fun kv => (buildC cfg.sorted kv.2).map fun c => (kv.1, c))
        (mappingOf (pairs.map fun pr =>
          (pr.1, if cfg.as_pyasp then Val.atomv pr.1 pr.2 else pr.2)))).map
        Formatted.fmap := by
  simp [postFormat, hg]

/-! ## Claim theorems: regex group shape, discard-args, first-arg -/

/-- Whatever the fuel, a present second capture group starts with `(` and
ends with `)` (helper for the claim over `fastMatches`). -/
theorem fastMatchesF_group_paren :
    ∀ (fuel : Nat) (l : List Char)
      (pr : List Char × Option (List Char)), pr ∈ fastMatchesF fuel l →
      ∀ a, pr.2 = some a → a.head? = some '(' ∧ a.getLast? = some ')' := by
  intro fuel
  induction fuel with
  | zero => intro l pr hpr; cases hpr
  | succ n ih =>
      intro l pr hpr a ha
      cases l with
      | nil => cases hpr
      | cons c rest =>
          simp only [fastMatchesF] at hpr
          split_ifs at hpr with hc hh hg
          · rcases List.mem_cons.mp hpr with rfl | hmem
            · simp only at ha
              cases ha
              exact ⟨rfl, List.getLast?_concat _⟩
            · exact ih _ pr hmem a ha
          · rcases List.mem_cons.mp hpr with rfl | hmem
            · cases ha
            · exact ih _ pr hmem a ha
          · rcases List.mem_cons.mp hpr with rfl | hmem
            · cases ha
            · exact ih _ pr hmem a ha
          · exact ih _ pr hpr a ha

/-- C10: for every input string, every match of the fast-mode answer-set
pattern has its second capture group either absent, or starting with `(`
and ending with `)` — so the assertion guarding fast-mode argument
stripping (answers.py line 131) never fails. -/
theorem fast_regex_group2_parenthesized (s : List Char)
    (pr : List Char × Option (List Char)) (hpr : pr ∈ fastMatches s) :
    pr.2 = none ∨ ∃ a, pr.2 = some a ∧
      a.head? = some '(' ∧ a.getLast? = some ')' := by
  cases ha : pr.2 with
  | none => exact Or.inl rfl
  | some a =>
      exact Or.inr ⟨a, rfl, fastMatchesF_group_paren s.length s pr hpr a ha⟩

/-- C10 (witness): the theorem applied to the concrete input `p(a)`. -/
theorem fast_regex_group2_parenthesized_witness :
    (['p'], some ['(', 'a', ')']) ∈ fastMatches "p(a)".data ∧
    ((['p'], some ['(', 'a', ')']) :
        List Char × Option (List Char)).2 = none ∨
      ∃ a, ((['p'], some ['(', 'a', ')']) :
          List Char × Option (List Char)).2 = some a ∧
        a.head? = some '(' ∧ a.getLast? = some ')' := by
  refine Or.inr ?_
  have h := fast_regex_group2_parenthesized "p(a)".data
    (['p'], some ['(', 'a', ')']) (by decide)
  rcases h with h | h
  · cases h
  · exact h

/-- C3: with `discard_args` (`no_arg`) active, the formatted result
contains no argument values, whatever the other options: (1) it depends
only on the predicate names — replacing every atom's arguments changes
nothing, so `first_arg_only` and full-argument formatting never apply;
(2) with `group_by_predicate` it is the mapping from each predicate name
to an empty container; (3) with the legacy-atom option its members are
the predicates wrapped with an empty argument sequence; (4) otherwise
its members are exactly the predicate names, in the chosen container. -/
theorem no_arg_ignores_arguments (cfg : Config)
    (hig : cfg.ignore_args = true) (atoms atoms' : List (String × Val)) :
    (atoms.map Prod.fst = atoms'.map Prod.fst →
      format cfg atoms = format cfg atoms') ∧
    (cfg.group_atoms = true →
      format cfg atoms = some (Formatted.fmap
        ((dedupFirst (atoms.map Prod.fst)).map fun p =>
          (p, Container.fset [])))) ∧
    (cfg.group_atoms = false → cfg.as_pyasp = true →
      ∀ c, format cfg atoms = some (Formatted.coll c) →
        c.elems = ((atoms.map Prod.fst).map fun p =>
          Val.atomv p Val.nilv).toFinset) ∧
    (cfg.group_atoms = false → cfg.as_pyasp = false →
      ∀ c, format cfg atoms = some (Formatted.coll c) →
        c.elems = ((atoms.map Prod.fst).map Val.str).toFinset) := by
  refine ⟨?_, ?_, ?_, ?_⟩
  · intro hpreds
    simp only [format, hig, if_true]
    rw [hpreds]
  · intro hg
    exact format_ignore_group hig hg atoms
  · intro hg hp c hfmt
    rw [format_ignore_pyasp hig hg hp atoms] at hfmt
    simp only [Option.map_eq_some'] at hfmt
    obtain ⟨c0, hc0, hcoll⟩ := hfmt
    cases hcoll
    exact buildC_elems hc0
  · intro hg hp c hfmt
    rw [format_ignore_plain hig hg hp atoms] at hfmt
    simp only [Option.map_eq_some'] at hfmt
    obtain ⟨c0, hc0, hcoll⟩ := hfmt
    cases hcoll
    exact buildC_elems hc0

/-- C3 (witness): the theorem applied to a configuration with every other
option active and concrete atoms with arguments; part (2) gives the
grouped empty-container mapping concretely. -/
theorem no_arg_ignores_arguments_witness :
    format (Opt.no_arg (Opt.by_predicate (Opt.sorted (Opt.as_pyasp
        (Opt.first_arg_only (Opt.atoms_as_string initConfig))))))
        [("d", Val.tupleOf [Val.int 1]), ("e", Val.tupleOf [Val.str "x"])] =
      some (Formatted.fmap
        [("d", Container.fset []), ("e", Container.fset [])]) := by
  have h := (no_arg_ignores_arguments
    (Opt.no_arg (Opt.by_predicate (Opt.sorted (Opt.as_pyasp
      (Opt.first_arg_only (Opt.atoms_as_string initConfig)))))) rfl
    [("d", Val.tupleOf [Val.int 1]), ("e", Val.tupleOf [Val.str "x"])]
    []).2.1 rfl
  simpa using h

/-- C7: with `first_arg_only` active and `discard_args` not, the
formatter's per-atom elements are exactly `(predicate, first argument)`
with the argument unwrapped for atoms with at least one argument, and
`(predicate, ())` for atoms without; formatting then proceeds on those
pairs. -/
theorem first_arg_only_unwraps (cfg : Config)
    (hfa : cfg.first_arg_only = true) (hig : cfg.ignore_args = false)
    (atoms : List (String × Val))
    (hshape : ∀ pa ∈ atoms, ∃ xs : List Val, pa.2 = Val.tupleOf xs) :
    formatElems cfg atoms =
      some (atoms.map fun pa => (pa.1, firstOrUnit pa.2)) ∧
    format cfg atoms =
      (buildC cfg.sorted ((atoms.map fun pa =>
        (pa.1, firstOrUnit pa.2)).map fun pr => mkPairV pr.1 pr.2)).bind
        (postFormat cfg) := by
  have hel : formatElems cfg atoms =
      some (atoms.map fun pa => (pa.1, firstOrUnit pa.2)) := by
    simp only [formatElems, hfa, if_true]
    apply omap_congr_some
    intro pa hpa
    obtain ⟨xs, hxs⟩ := hshape pa hpa
    cases xs with
    | nil => simp [firstArgElem, hxs, Val.tupleOf, pyTruthy, firstOrUnit]
    | cons x rest =>
        simp [firstArgElem, hxs, Val.tupleOf, pyTruthy, pyIndex0, firstOrUnit]
  refine ⟨hel, ?_⟩
  rw [format_not_ignore hig, hel]
  rfl

/-- C7 (witness): the theorem applied to concrete atoms `p(1,2)` and
`q`: the elements are `(p, 1)` — the integer unwrapped — and `(q, ())`. -/
theorem first_arg_only_unwraps_witness :
    formatElems (Opt.first_arg_only initConfig)
        [("p", Val.tupleOf [Val.int 1, Val.int 2]), ("q", Val.tupleOf [])] =
      some [("p", Val.int 1), ("q", Val.nilv)] := by
  have hs : ∀ pa ∈ [("p", Val.tupleOf [Val.int 1, Val.int 2]),
      ("q", Val.tupleOf [])], ∃ xs : List Val, pa.2 = Val.tupleOf xs := by
    intro pa hpa
    rcases List.mem_cons.mp hpa with rfl | hpa2
    · exact ⟨[Val.int 1, Val.int 2], rfl⟩
    · rcases List.mem_cons.mp hpa2 with rfl | h
      · exact ⟨[], rfl⟩
      · cases h
  have h := (first_arg_only_unwraps (Opt.first_arg_only initConfig) rfl rfl
    _ hs).1
  simpa [firstOrUnit, Val.tupleOf] using h

/-- Decoding succeeds on an all-integer tuple and re-encodes to it. -/
theorem listOf_isIntTuple :
    ∀ {v : Val}, isIntTuple v = true →
      ∃ l, Val.listOf v = some l ∧ Val.tupleOf l = v := by
  intro v
  induction v with
  | int n => intro h; cases h
  | str s => intro h; cases h
  | nilv => intro _; exact ⟨[], rfl, rfl⟩
  | consv x xs ihx ihxs =>
      intro h
      cases x with
      | int n =>
          obtain ⟨l, hl, htl⟩ := ihxs (by simpa [isIntTuple] using h)
          refine ⟨Val.int n :: l, ?_, ?_⟩
          · simp [Val.listOf, hl]
          · simp [Val.tupleOf] at htl ⊢
            rw [htl]
      | str s => cases h
      | nilv => cases h
      | consv a b => cases h
      | atomv p r => cases h
  | atomv p r ih => intro h; cases h

/-- Two all-integer tuples always compare in Python. -/
theorem pyCompare_int_tuples :
    ∀ {a b : Val}, isIntTuple a = true → isIntTuple b = true →
      (pyCompare a b).isSome := by
  intro a
  induction a with
  | int n => intro b ha; cases ha
  | str s => intro b ha; cases ha
  | nilv =>
      intro b ha hb
      cases b with
      | nilv => simp [pyCompare]
      | consv y ys =>
          cases y with
          | int m => simp [pyCompare]
          | str s => cases hb
          | nilv => cases hb
          | consv c d => cases hb
          | atomv p r => cases hb
      | int m => cases hb
      | str s => cases hb
      | atomv p r => cases hb
  | consv x xs ihx ihxs =>
      intro b ha hb
      cases x with
      | int n =>
          have ha' : isIntTuple xs = true := by simpa [isIntTuple] using ha
          cases b with
          | nilv => simp [pyCompare]
          | consv y ys =>
              cases y with
              | int m =>
                  have hb' : isIntTuple ys = true := by
                    simpa [isIntTuple] using hb
                  by_cases hxy : (Val.int n : Val) = Val.int m
                  · simp only [pyCompare, hxy, if_true]
                    exact ihxs ha' hb'
                  · simp [pyCompare, hxy]
              | str s => cases hb
              | nilv => cases hb
              | consv c d => cases hb
              | atomv p r => cases hb
          | int m => cases hb
          | str s => cases hb
          | atomv p r => cases hb
      | str s => cases ha
      | nilv => cases ha
      | consv c d => cases ha
      | atomv p r => cases ha
  | atomv p r ih => intro b ha; cases ha

/-- `pyCompare` on two nonempty tuples: skip equal heads, else compare
heads (definitional equation, stated for rewriting). -/
theorem pyCompare_consv_consv (x xs y ys : Val) :
    pyCompare (Val.consv x xs) (Val.consv y ys) =
      if x = y then pyCompare xs ys else pyCompare x y := rfl

/-- Two formatter pair values with all-integer arguments always compare
in Python: predicates are strings, arguments all-integer tuples. -/
theorem pyCompare_int_pairs {p q : String} {v w : Val}
    (hv : isIntTuple v = true) (hw : isIntTuple w = true) :
    (pyCompare (mkPairV p v) (mkPairV q w)).isSome := by
  unfold mkPairV
  rw [pyCompare_consv_consv]
  by_cases hpq : (Val.str p : Val) = Val.str q
  · rw [if_pos hpq, pyCompare_consv_consv]
    by_cases hvw : v = w
    · rw [if_pos hvw]
      simp [pyCompare]
    · rw [if_neg hvw]
      exact pyCompare_int_tuples hv hw
  · rw [if_neg hpq]
    simp [pyCompare]

/-- C6 (amended): with the `sorted` option, formatting an answer set
whose atoms carry only integer arguments succeeds: Python's default
ordering is total on the pair values that arise (string predicates,
all-integer argument tuples).  It is not total once integer and string
arguments mix in one position (see the counterexample theorem). -/
theorem sorted_succeeds_on_int_arguments (atoms : List (String × Val))
    (hints : ∀ pa ∈ atoms, isIntTuple pa.2 = true) :
    ∃ r, format (Opt.sorted initConfig) atoms = some r := by
  have hel0 : omap fullArgsElem atoms =
      some (atoms.map fun pa => (pa.1, pa.2)) := by
    apply omap_congr_some
    intro pa hpa
    obtain ⟨l, hl, htl⟩ := listOf_isIntTuple (hints pa hpa)
    have hint := hints pa hpa
    cases hv : pa.2 with
    | nilv => simp [fullArgsElem, hv, pyTupleOf, Val.tupleOf]
    | consv x xs =>
        rw [hv] at hl htl
        simp [fullArgsElem, hv, pyTupleOf, hl, htl]
    | int n => rw [hv] at hint; cases hint
    | str s => rw [hv] at hint; cases hint
    | atomv pq r => rw [hv] at hint; cases hint
  have hel : formatElems (Opt.sorted initConfig) atoms =
      some (atoms.map fun pa => (pa.1, pa.2)) := hel0
  have hcomp : ∀ a ∈ (atoms.map fun pa => (pa.1, pa.2)).map
      (fun pr => mkPairV pr.1 pr.2), ∀ b ∈ (atoms.map fun pa =>
        (pa.1, pa.2)).map (fun pr => mkPairV pr.1 pr.2),
      (pyCompare a b).isSome := by
    intro a ha b hb
    simp only [List.map_map, List.mem_map] at ha hb
    obtain ⟨pa, hpa, rfl⟩ := ha
    obtain ⟨pb, hpb, rfl⟩ := hb
    exact pyCompare_int_pairs (hints pa hpa) (hints pb hpb)
  obtain ⟨l', hl'⟩ := sortedTupleO_isSome hcomp
  refine ⟨Formatted.coll (Container.stup l'), ?_⟩
  rw [format_not_ignore rfl, hel, Option.some_bind]
  have hbuild : buildC (Opt.sorted initConfig).sorted
      ((atoms.map fun pa => (pa.1, pa.2)).map fun pr =>
        mkPairV pr.1 pr.2) = some (Container.stup l') := by
    show (sortedTupleO ((atoms.map fun pa => (pa.1, pa.2)).map fun pr =>
      mkPairV pr.1 pr.2)).map Container.stup = some (Container.stup l')
    rw [hl']
    rfl
  rw [hbuild, Option.some_bind]
  exact postFormat_plain rfl rfl _

/-- C6 (amended, witness): the theorem applied to the concrete parsed
answer set `{p(2), p(1)}`. -/
theorem sorted_succeeds_on_int_arguments_witness :
    ∃ r, format (Opt.sorted initConfig)
      [("p", Val.tupleOf [Val.int 2]), ("p", Val.tupleOf [Val.int 1])] =
        some r :=
  sorted_succeeds_on_int_arguments
    [("p", Val.tupleOf [Val.int 2]), ("p", Val.tupleOf [Val.int 1])]
    (by decide)

/-- Core of the sorted/unsorted comparison: whenever formatting succeeds
under a configuration `c1`, formatting under a configuration `c2` that
agrees on every option except `sorted` — with `sorted` off — also
succeeds, and the two results contain exactly the same elements
(per predicate, when grouping). -/
theorem format_sorted_equiv_aux (c1 c2 : Config)
    (hfa : c1.first_arg_only = c2.first_arg_only)
    (hg : c1.group_atoms = c2.group_atoms)
    (hp : c1.as_pyasp = c2.as_pyasp)
    (hig : c1.ignore_args = c2.ignore_args)
    (hs2 : c2.sorted = false)
    (atoms : List (String × Val)) (r : Formatted)
    (h : format c1 atoms = some r) :
    ∃ r', format c2 atoms = some r' ∧ FormattedEquiv r r' := by
  cases hig1 : c1.ignore_args with
  | true =>
    have hig2 : c2.ignore_args = true := hig.symm.trans hig1
    cases hg1 : c1.group_atoms with
    | true =>
      have hg2 : c2.group_atoms = true := hg.symm.trans hg1
      rw [format_ignore_group hig1 hg1 atoms] at h
      cases h
      exact ⟨_, format_ignore_group hig2 hg2 atoms, fun k => rfl⟩
    | false =>
      have hg2 : c2.group_atoms = false := hg.symm.trans hg1
      cases hp1 : c1.as_pyasp with
      | true =>
        have hp2 : c2.as_pyasp = true := hp.symm.trans hp1
        rw [format_ignore_pyasp hig1 hg1 hp1 atoms] at h
        simp only [Option.map_eq_some'] at h
        obtain ⟨c, hc, rfl⟩ := h
        refine ⟨Formatted.coll (Container.fset (dedupFirst
          ((atoms.map Prod.fst).map fun p => Val.atomv p Val.nilv))),
          ?_, ?_⟩
        · rw [format_ignore_pyasp hig2 hg2 hp2 atoms, hs2]
          rfl
        · show c.elems = _
          unfold Container.elems
          rw [buildC_elems hc]
          exact (toFinset_dedupFirst _).symm
      | false =>
        have hp2 : c2.as_pyasp = false := hp.symm.trans hp1
        rw [format_ignore_plain hig1 hg1 hp1 atoms] at h
        simp only [Option.map_eq_some'] at h
        obtain ⟨c, hc, rfl⟩ := h
        refine ⟨Formatted.coll (Container.fset (dedupFirst
          ((atoms.map Prod.fst).map Val.str))), ?_, ?_⟩
        · rw [format_ignore_plain hig2 hg2 hp2 atoms, hs2]
          rfl
        · show c.elems = _
          unfold Container.elems
          rw [buildC_elems hc]
          exact (toFinset_dedupFirst _).symm
  | false =>
    have hig2 : c2.ignore_args = false := hig.symm.trans hig1
    rw [format_not_ignore hig1 atoms] at h
    simp only [Option.bind_eq_some] at h
    obtain ⟨els, hels, cont, hcont, hpf⟩ := h
    have hels2 : formatElems c2 atoms = some els := by
      unfold formatElems at hels ⊢
      rw [← hfa]
      exact hels
    have hfinT : cont.toList.toFinset =
        (els.map fun pr => mkPairV pr.1 pr.2).toFinset := buildC_elems hcont
    have hcontF : buildC c2.sorted (els.map fun pr => mkPairV pr.1 pr.2) =
        some (Container.fset
          (dedupFirst (els.map fun pr => mkPairV pr.1 pr.2))) := by
      rw [hs2]
      rfl
    have hfinF : (Container.fset
        (dedupFirst (els.map fun pr => mkPairV pr.1 pr.2))).toList.toFinset =
        (els.map fun pr => mkPairV pr.1 pr.2).toFinset :=
      toFinset_dedupFirst _
    have hLL : cont.toList.toFinset = (Container.fset
        (dedupFirst (els.map fun pr =>
          mkPairV pr.1 pr.2))).toList.toFinset := by
      rw [hfinT, hfinF]
    have hshapeF : ∀ v ∈ (Container.fset
        (dedupFirst (els.map fun pr => mkPairV pr.1 pr.2))).toList,
        (destructPair v).isSome := by
      intro v hv
      have hvL : v ∈ els.map fun pr => mkPairV pr.1 pr.2 :=
        List.mem_toFinset.mp (hfinF ▸ List.mem_toFinset.mpr hv)
      obtain ⟨pr, hpr, rfl⟩ := List.mem_map.mp hvL
      rw [destructPair_mkPairV]
      rfl
    cases hg1 : c1.group_atoms with
    | false =>
      have hg2 : c2.group_atoms = false := hg.symm.trans hg1
      cases hp1 : c1.as_pyasp with
      | false =>
        have hp2 : c2.as_pyasp = false := hp.symm.trans hp1
        rw [postFormat_plain hg1 hp1 cont] at hpf
        cases hpf
        refine ⟨Formatted.coll (Container.fset
          (dedupFirst (els.map fun pr => mkPairV pr.1 pr.2))), ?_, ?_⟩
        · rw [format_not_ignore hig2 atoms, hels2, Option.some_bind, hcontF,
            Option.some_bind]
          exact postFormat_plain hg2 hp2 _
        · exact hLL
      | true =>
        have hp2 : c2.as_pyasp = true := hp.symm.trans hp1
        rw [postFormat_pyasp hg1 hp1 cont] at hpf
        simp only [Option.bind_eq_some] at hpf
        obtain ⟨pairsT, hoT, hpf2⟩ := hpf
        simp only [Option.map_eq_some'] at hpf2
        obtain ⟨cT2, hcT2, rfl⟩ := hpf2
        obtain ⟨pairsF, hoF⟩ := omap_isSome hshapeF
        have hps : pairsT.toFinset = pairsF.toFinset :=
          destruct_toFinset_congr hoT hoF hLL
        refine ⟨Formatted.coll (Container.fset (dedupFirst
          (pairsF.map fun pr => Val.atomv pr.1 pr.2))), ?_, ?_⟩
        · rw [format_not_ignore hig2 atoms, hels2, Option.some_bind, hcontF,
            Option.some_bind, postFormat_pyasp hg2 hp2 _, hoF,
            Option.some_bind, hs2]
          rfl
        · show cT2.elems = _
          unfold Container.elems
          rw [buildC_elems hcT2]
          rw [toFinset_map_congr (f := fun pr : String × Val =>
            Val.atomv pr.1 pr.2) hps]
          exact (toFinset_dedupFirst _).symm
    | true =>
      have hg2 : c2.group_atoms = true := hg.symm.trans hg1
      rw [postFormat_group hg1 cont] at hpf
      simp only [Option.bind_eq_some] at hpf
      obtain ⟨pairsT, hoT, hpf2⟩ := hpf
      simp only [Option.map_eq_some'] at hpf2
      obtain ⟨lT, holT, rfl⟩ := hpf2
      obtain ⟨pairsF, hoF⟩ := omap_isSome hshapeF
      have hps : pairsT.toFinset = pairsF.toFinset :=
        destruct_toFinset_congr hoT hoF hLL
      have hwps : (pairsT.map fun pr =>
          (pr.1, if c1.as_pyasp then Val.atomv pr.1 pr.2 else pr.2)).toFinset =
          (pairsF.map fun pr =>
          (pr.1, if c2.as_pyasp then Val.atomv pr.1 pr.2 else pr.2)).toFinset := by
        rw [← hp]
        exact toFinset_map_congr hps
      obtain ⟨lF, holF⟩ := omap_isSome (f := fun kv =>
        (buildC c2.sorted kv.2).map fun c => (kv.1, c))
        (l := mappingOf (pairsF.map fun pr =>
          (pr.1, if c2.as_pyasp then Val.atomv pr.1 pr.2 else pr.2)))
        (by intro kv _; rw [hs2]; rfl)
      refine ⟨Formatted.fmap lF, ?_, ?_⟩
      · rw [format_not_ignore hig2 atoms, hels2, Option.some_bind, hcontF,
          Option.some_bind, postFormat_group hg2 _, hoF, Option.some_bind,
          holF]
        rfl
      · show ∀ k, (List.lookup k lT).map Container.elems =
          (List.lookup k lF).map Container.elems
        intro k
        rw [omap_lookup_build holT k, omap_lookup_build holF k,
          mappingOf_lookup k _, mappingOf_lookup k _]
        have hkmem := mem_of_toFinset_eq
          (toFinset_map_congr (f := Prod.fst) hwps) k
        by_cases hk : k ∈ (pairsT.map fun pr =>
            (pr.1, if c1.as_pyasp then Val.atomv pr.1 pr.2 else pr.2)).map
            Prod.fst
        · rw [if_pos hk, if_pos (hkmem.mp hk), Option.some_bind,
            Option.some_bind]
          have hentryT : (k, dedupFirst ((pairsT.map fun pr =>
              (pr.1, if c1.as_pyasp then Val.atomv pr.1 pr.2
                else pr.2)).filterMap fun q =>
              if q.1 = k then some q.2 else none)) ∈
              mappingOf (pairsT.map fun pr =>
                (pr.1, if c1.as_pyasp then Val.atomv pr.1 pr.2
                  else pr.2)) := by
            unfold mappingOf
            exact List.mem_map_of_mem _ (mem_dedupFirst.mpr hk)
          have hsomeT := omap_forall_isSome holT _ hentryT
          obtain ⟨cTk, hcTk⟩ := Option.isSome_iff_exists.mp hsomeT
          simp only [Option.map_eq_some'] at hcTk
          obtain ⟨ck, hck, hpairk⟩ := hcTk
          rw [hck, hs2, buildC_false]
          simp only [Option.map_some']
          congr 1
          unfold Container.elems
          rw [buildC_elems hck]
          show (dedupFirst _).toFinset = (dedupFirst (dedupFirst _)).toFinset
          rw [toFinset_dedupFirst, toFinset_dedupFirst, toFinset_dedupFirst]
          exact toFinset_filterMap_congr hwps
        · rw [if_neg hk, if_neg (fun hc => hk (hkmem.mpr hc))]
          rfl

/-- C4: for every parsed answer set and every combination of the other
options, whenever the `sorted` run produces an output, the run without
`sorted` produces an output too, and the two agree up to order-insensitive
equality: flat outputs have the same element set, grouped outputs assign
every predicate value containers with the same element set.  (The
unsorted output is the `frozenset`-based one.) -/
theorem sorted_output_same_elements (cfg : Config)
    (atoms : List (String × Val)) (r : Formatted)
    (h : format (Opt.sorted cfg) atoms = some r) :
    ∃ r', format { cfg with sorted := false } atoms = some r' ∧
      FormattedEquiv r r' :=
  format_sorted_equiv_aux (Opt.sorted cfg) { cfg with sorted := false }
    rfl rfl rfl rfl rfl atoms r h

/-- C4 (witness): the theorem applied to the concrete parsed answer set
`{p(2), p(1), p(2)}` (with a duplicate atom), whose sorted output is the
ordered tuple `(p(1), p(2), p(2))`. -/
theorem sorted_output_same_elements_witness :
    ∃ r', format { initConfig with sorted := false }
        [("p", Val.tupleOf [Val.int 2]), ("p", Val.tupleOf [Val.int 1]),
         ("p", Val.tupleOf [Val.int 2])] = some r' ∧
      FormattedEquiv (Formatted.coll (Container.stup
        [mkPairV "p" (Val.tupleOf [Val.int 1]),
         mkPairV "p" (Val.tupleOf [Val.int 2]),
         mkPairV "p" (Val.tupleOf [Val.int 2])])) r' :=
  sorted_output_same_elements initConfig
    [("p", Val.tupleOf [Val.int 2]), ("p", Val.tupleOf [Val.int 1]),
     ("p", Val.tupleOf [Val.int 2])]
    (Formatted.coll (Container.stup
      [mkPairV "p" (Val.tupleOf [Val.int 1]),
       mkPairV "p" (Val.tupleOf [Val.int 2]),
       mkPairV "p" (Val.tupleOf [Val.int 2])])) (by decide)
